import Mathlib

/-!
Verification of the LSB steganography core (`steganography.py`) against its
natural-language specification.  The Python code is shallowly embedded:

* a message is the list of its character code points (`ord` values);
* a pixel is a triple of natural-number channel values (R, G, B);
* `format(n, '08b')` becomes `format8` (binary digits, MSB first, left-padded
  with zeros to at least eight digits);
* `int(s, 2)` becomes `bitsToNat`;
* `hide_message` / `extract_message` return `Option` values: `none` models the
  failure paths (`return False` / `return None`) of the Python code, with the
  image file I/O stripped away (the spec treats it as an external collaborator).
-/

set_option maxRecDepth 100000

namespace LSBSteg

/-- A pixel: the (R, G, B) channel values. -/
abbrev Pixel := Nat × Nat × Nat

/-- The delimiter `"###END###"` as its nine ASCII code points. -/
def delimiter : List Nat := [35, 35, 35, 69, 78, 68, 35, 35, 35]

/-- Binary digits of `n`, MSB first, no leading zeros (`"0"` for zero), computed
with explicit fuel so that the kernel can evaluate it.  The fuel used by
`rawBits` is always sufficient. -/
def rawBitsAux : Nat → Nat → List Nat
  | 0, _ => []
  | fuel + 1, n => if n < 2 then [n] else rawBitsAux fuel (n / 2) ++ [n % 2]

/-- Binary digits of `n`, MSB first, as produced by Python `format(n, 'b')`. -/
def rawBits (n : Nat) : List Nat := rawBitsAux (n + 1) n

/-- Python `format(n, '08b')`: binary digits MSB first, left-padded with zeros
to at least eight digits. -/
def format8 (n : Nat) : List Nat := List.replicate (8 - (rawBits n).length) 0 ++ rawBits n

/-- Python `int(s, 2)` on a digit list, MSB first. -/
def bitsToNat (l : List Nat) : Nat := l.foldl (fun acc d => 2 * acc + d) 0

/-- `LSBSteganography._message_to_binary`: concatenate `format(ord(c), '08b')`
over the characters of the message. -/
def message_to_binary (msg : List Nat) : List Nat := (msg.map format8).flatten

/-- `LSBSteganography._binary_to_message`: consume the digit list in groups of
eight, turning each full group into a character code; a trailing group of fewer
than eight digits is discarded. -/
def binary_to_message : List Nat → List Nat
  | b0 :: b1 :: b2 :: b3 :: b4 :: b5 :: b6 :: b7 :: rest =>
      bitsToNat [b0, b1, b2, b3, b4, b5, b6, b7] :: binary_to_message rest
  | _ => []

/-- `LSBSteganography._modify_pixel`: format the channel value in binary, drop
the last digit, append the data bit, and read the result back as a number. -/
def modify_pixel (p dataBit : Nat) : Nat := bitsToNat ((format8 p).dropLast ++ [dataBit])

/-- `LSBSteganography._extract_lsb`: the last binary digit of the channel value. -/
def extract_lsb (p : Nat) : Nat := (format8 p).getLastD 0

/-- The pixel-modification loop of `hide_message`: walk the pixels in order;
at each pixel overwrite the LSBs of R, then G, then B with the next unconsumed
data bits; once the bits run out, keep the remaining pixels unchanged. -/
def hideLoop : List Pixel → List Nat → List Pixel
  | [], _ => []
  | p :: ps, [] => p :: ps
  | (r, g, bl) :: ps, d1 :: rest1 =>
      match rest1 with
      | [] => (modify_pixel r d1, g, bl) :: ps
      | d2 :: rest2 =>
          match rest2 with
          | [] => (modify_pixel r d1, modify_pixel g d2, bl) :: ps
          | d3 :: rest3 =>
              (modify_pixel r d1, modify_pixel g d2, modify_pixel bl d3) :: hideLoop ps rest3

/-- `LSBSteganography.hide_message`, with the image decoding/encoding stripped:
append the delimiter, convert to binary, reject the message if it needs more
bits than `width * height * 3`, otherwise run the embedding walk.  `none`
models `return False` (no output written). -/
def hide_message (width height : Nat) (pixels : List Pixel) (message : List Nat) :
    Option (List Pixel) :=
  let binary_message := message_to_binary (message ++ delimiter)
  let total_bits_available := width * height * 3
  if binary_message.length > total_bits_available then none
  else some (hideLoop pixels binary_message)

/-- The LSB-collection loop of `extract_message`: the last binary digit of
every channel of every pixel, in R, G, B order. -/
def extractBits : List Pixel → List Nat
  | [] => []
  | (r, g, bl) :: ps => extract_lsb r :: extract_lsb g :: extract_lsb bl :: extractBits ps

/-- Python `full_message.split(delimiter)[0]` guarded by
`delimiter in full_message`: the segment before the first occurrence of the
delimiter, or `none` when the delimiter does not occur. -/
def splitBefore : List Nat → Option (List Nat)
  | [] => none
  | x :: xs =>
      if delimiter.isPrefixOf (x :: xs) then some []
      else (splitBefore xs).map (fun t => x :: t)

/-- `LSBSteganography.extract_message`, with the image decoding stripped:
collect every LSB, convert the digit stream to characters, and return the part
before the first delimiter occurrence (`none` models `return None`). -/
def extract_message (pixels : List Pixel) : Option (List Nat) :=
  splitBefore (binary_to_message (extractBits pixels))

/-- The delimiter occurs in `l` at position `i` (as a contiguous sublist). -/
def occursAt (l : List Nat) (i : Nat) : Prop := delimiter.isPrefixOf (l.drop i) = true

instance (l : List Nat) (i : Nat) : Decidable (occursAt l i) :=
  inferInstanceAs (Decidable (delimiter.isPrefixOf (l.drop i) = true))

/-- The channel values of a pixel list, flattened in R, G, B order. -/
def channelList (ps : List Pixel) : List Nat := (ps.map (fun p => [p.1, p.2.1, p.2.2])).flatten

/-- Per-channel absolute differences of one pixel pair, as in `compare_images`. -/
def pixelDiffs (p q : Pixel) : List Nat :=
  [((p.1 : Int) - (q.1 : Int)).natAbs,
   ((p.2.1 : Int) - (q.2.1 : Int)).natAbs,
   ((p.2.2 : Int) - (q.2.2 : Int)).natAbs]

/-- All per-channel absolute differences of two pixel lists, as walked by
`compare_images` (pixels zipped, three channels each). -/
def diffList (a b : List Pixel) : List Nat :=
  ((a.zip b).map (fun pq => pixelDiffs pq.1 pq.2)).flatten

/-- The differences `compare_images` counts and maximizes over: those with
`diff > 0`. -/
def changedDiffs (a b : List Pixel) : List Nat :=
  (diffList a b).filter (fun d => decide (0 < d))

/-- `differences` as reported by `compare_images`: the number of channel values
with a nonzero difference. -/
def differences (a b : List Pixel) : Nat := (changedDiffs a b).length

/-- `max_diff` as reported by `compare_images`: it starts at `0` and is updated
only on channels whose difference is nonzero. -/
def max_diff (a b : List Pixel) : Nat := (changedDiffs a b).foldl max 0

/-- The capacity record displayed by the CLI (`capacity` action). -/
structure CapacityInfo where
  width : Nat
  height : Nat
  total_pixels : Nat
  total_bits : Nat
  delimiter_overhead : Nat
  available_bits : Int
  max_characters : Int
  deriving Repr, DecidableEq

/-- Modelled from the spec: `LSBSteganography.get_capacity` is called by
`cli.py` but absent from `steganography.py`; this follows the spec's
CapacityInfo (§3) and reported fields (§6): `total_pixels`,
`total_bits = total_pixels × 3`, `delimiter_bits = 8 × len(delimiter_bytes)`,
`available_bits = total_bits − delimiter_bits`, and
`max_characters = floor((total_bits − delimiter_bits) / 8)`. -/
def get_capacity (width height : Nat) : CapacityInfo :=
  let total_pixels := width * height
  let total_bits := total_pixels * 3
  let delimiter_bits := 8 * delimiter.length
  { width := width
    height := height
    total_pixels := total_pixels
    total_bits := total_bits
    delimiter_overhead := delimiter_bits
    available_bits := (total_bits : Int) - (delimiter_bits : Int)
    max_characters := Int.fdiv ((total_bits : Int) - (delimiter_bits : Int)) 8 }

/-- A 4×6 all-black grid: 24 pixels, exactly 72 available bits. -/
def gridA : List Pixel := List.replicate 24 (0, 0, 0)

/-- A 4×6 grid with mixed channel values, used to exercise the embedding walk. -/
def gridB : List Pixel := List.replicate 24 (10, 160, 255)

/-- The embedding of the empty message (delimiter only) into `gridB`. -/
def stegoB : List Pixel := hideLoop gridB (message_to_binary ([] ++ delimiter))

/-- A 27×1 grid: 81 available bits, enough for a one-byte message plus delimiter. -/
def gridC : List Pixel := List.replicate 27 (7, 8, 9)

/-- The embedding of the one-byte message `[104]` into `gridC`. -/
def stegoC : List Pixel := hideLoop gridC (message_to_binary ([104] ++ delimiter))

/-- A 16×3 all-black grid: 48 pixels, 144 available bits. -/
def gridD : List Pixel := List.replicate 48 (0, 0, 0)

/-! ### Basic facts about the bit codec -/

theorem bitsToNat_nil : bitsToNat [] = 0 := rfl

theorem bitsToNat_singleton (d : Nat) : bitsToNat [d] = d := by
  simp [bitsToNat]

theorem bitsToNat_append_singleton (l : List Nat) (d : Nat) :
    bitsToNat (l ++ [d]) = 2 * bitsToNat l + d := by
  simp [bitsToNat, List.foldl_append]

theorem foldl_twice_zero (k : Nat) :
    (List.replicate k 0).foldl (fun acc d => 2 * acc + d) 0 = 0 := by
  induction k with
  | zero => rfl
  | succ k ih => simpa [List.replicate_succ] using ih

theorem bitsToNat_replicate_zero_append (k : Nat) (l : List Nat) :
    bitsToNat (List.replicate k 0 ++ l) = bitsToNat l := by
  simp [bitsToNat, List.foldl_append, foldl_twice_zero]

theorem rawBitsAux_digits_lt_two :
    ∀ fuel n d, d ∈ rawBitsAux fuel n → d < 2 := by
  intro fuel
  induction fuel with
  | zero => intro n d hd; simp [rawBitsAux] at hd
  | succ fuel ih =>
    intro n d hd
    rw [rawBitsAux] at hd
    split at hd
    · next hn => simp at hd; omega
    · next hn =>
      rcases List.mem_append.mp hd with h | h
      · exact ih _ _ h
      · simp at h; omega

theorem rawBits_digits_lt_two (n d : Nat) (hd : d ∈ rawBits n) : d < 2 :=
  rawBitsAux_digits_lt_two _ _ _ hd

theorem bitsToNat_rawBitsAux :
    ∀ fuel n, n < 2 ^ fuel → bitsToNat (rawBitsAux fuel n) = n := by
  intro fuel
  induction fuel with
  | zero => intro n hn; interval_cases n; rfl
  | succ fuel ih =>
    intro n hn
    rw [rawBitsAux]
    split
    · next h => exact bitsToNat_singleton n
    · next h =>
      rw [bitsToNat_append_singleton, ih (n / 2) (by rw [pow_succ] at hn; omega)]
      omega

theorem bitsToNat_rawBits (n : Nat) : bitsToNat (rawBits n) = n :=
  bitsToNat_rawBitsAux (n + 1) n
    (Nat.lt_of_lt_of_le (Nat.lt_two_pow n) (Nat.pow_le_pow_right (by omega) (Nat.le_succ n)))

theorem rawBits_ne_nil (n : Nat) : rawBits n ≠ [] := by
  rw [rawBits, rawBitsAux]
  split
  · simp
  · simp

theorem bitsToNat_format8 (n : Nat) : bitsToNat (format8 n) = n := by
  rw [format8, bitsToNat_replicate_zero_append, bitsToNat_rawBits]

theorem format8_ne_nil (n : Nat) : format8 n ≠ [] := by
  rw [format8]
  intro h
  exact rawBits_ne_nil n (List.append_eq_nil.mp h).2

theorem getLastD_irrel (r : List Nat) (hr : r ≠ []) (d d' : Nat) :
    r.getLastD d = r.getLastD d' := by
  cases r with
  | nil => exact absurd rfl hr
  | cons y ys => rfl

theorem getLastD_append_right (l r : List Nat) (hr : r ≠ []) (d : Nat) :
    (l ++ r).getLastD d = r.getLastD d := by
  induction l with
  | nil => rfl
  | cons x xs ih =>
    have hne : xs ++ r ≠ [] := by
      intro h
      exact hr (List.append_eq_nil.mp h).2
    calc (x :: (xs ++ r)).getLastD d = (xs ++ r).getLastD x := List.getLastD_cons d x _
      _ = (xs ++ r).getLastD d := getLastD_irrel _ hne _ _
      _ = r.getLastD d := ih

theorem rawBits_getLastD (n : Nat) : (rawBits n).getLastD 0 = n % 2 := by
  rw [rawBits, rawBitsAux]
  split
  · next h => simp; omega
  · next h => rw [getLastD_append_right _ _ (by simp) 0]; rfl

theorem extract_lsb_eq (p : Nat) : extract_lsb p = p % 2 := by
  rw [extract_lsb, format8, getLastD_append_right _ _ (rawBits_ne_nil p) 0, rawBits_getLastD]

theorem dropLast_append_right (l r : List Nat) (hr : r ≠ []) :
    (l ++ r).dropLast = l ++ r.dropLast := by
  cases r with
  | nil => exact absurd rfl hr
  | cons y ys =>
    induction l with
    | nil => rfl
    | cons x xs ih =>
      rcases xs with _ | ⟨z, zs⟩
      · rfl
      · calc ((x :: z :: zs) ++ y :: ys).dropLast
            = x :: ((z :: zs ++ y :: ys).dropLast) := rfl
          _ = x :: (z :: zs ++ (y :: ys).dropLast) := by rw [ih]
          _ = (x :: z :: zs) ++ (y :: ys).dropLast := rfl

theorem rawBits_decomp (n : Nat) :
    rawBits n = (rawBits n).dropLast ++ [n % 2] := by
  rw [rawBits, rawBitsAux]
  split
  · next h =>
    have : n % 2 = n := by omega
    simp [this]
  · next h =>
    rw [dropLast_append_right _ _ (by simp)]
    simp

theorem modify_pixel_eq (p b : Nat) : modify_pixel p b = 2 * (p / 2) + b := by
  have hdecomp : format8 p = (List.replicate (8 - (rawBits p).length) 0 ++
      (rawBits p).dropLast) ++ [p % 2] := by
    conv_rhs => rw [List.append_assoc, ← rawBits_decomp p]
    rw [format8]
  have hvalue : bitsToNat (List.replicate (8 - (rawBits p).length) 0 ++
      (rawBits p).dropLast) = p / 2 := by
    have h1 : bitsToNat (format8 p) = p := bitsToNat_format8 p
    rw [hdecomp, bitsToNat_append_singleton, bitsToNat_replicate_zero_append] at h1
    rw [bitsToNat_replicate_zero_append]
    omega
  have hdrop : (format8 p).dropLast = List.replicate (8 - (rawBits p).length) 0 ++
      (rawBits p).dropLast := by
    rw [hdecomp, List.dropLast_concat]
  rw [modify_pixel, hdrop, bitsToNat_append_singleton, hvalue]

theorem extract_lsb_modify_pixel (p b : Nat) (hb : b < 2) :
    extract_lsb (modify_pixel p b) = b := by
  rw [extract_lsb_eq, modify_pixel_eq]
  omega

theorem rawBitsAux_length_le :
    ∀ fuel n k, 0 < k → n < 2 ^ k → (rawBitsAux fuel n).length ≤ k := by
  intro fuel
  induction fuel with
  | zero => intro n k _ _; simp [rawBitsAux]
  | succ fuel ih =>
    intro n k hk hn
    rw [rawBitsAux]
    split
    · next h => simpa using hk
    · next h =>
      have hk2 : 2 ≤ k := by
        by_contra hlt
        have : k = 1 := by omega
        subst this
        omega
      have hdiv : n / 2 < 2 ^ (k - 1) := by
        have : 2 ^ k = 2 ^ (k - 1) * 2 := by
          conv_lhs => rw [show k = (k - 1) + 1 by omega]
          rw [pow_succ]
        omega
      have := ih (n / 2) (k - 1) (by omega) hdiv
      simp only [List.length_append, List.length_cons, List.length_nil]
      omega

theorem format8_length (c : Nat) (hc : c < 256) : (format8 c).length = 8 := by
  have hle : (rawBits c).length ≤ 8 :=
    rawBitsAux_length_le (c + 1) c 8 (by omega) (by norm_num; omega)
  rw [format8, List.length_append, List.length_replicate]
  omega

theorem format8_digits_lt_two (c d : Nat) (hd : d ∈ format8 c) : d < 2 := by
  rw [format8] at hd
  rcases List.mem_append.mp hd with h | h
  · have := List.eq_of_mem_replicate h
    omega
  · exact rawBits_digits_lt_two c d h

/-! ### The message codec -/

theorem message_to_binary_nil : message_to_binary [] = [] := rfl

theorem message_to_binary_cons (c : Nat) (s : List Nat) :
    message_to_binary (c :: s) = format8 c ++ message_to_binary s := by
  simp [message_to_binary]

theorem message_to_binary_append (s t : List Nat) :
    message_to_binary (s ++ t) = message_to_binary s ++ message_to_binary t := by
  simp [message_to_binary]

theorem message_to_binary_digits_lt_two (s : List Nat) (d : Nat)
    (hd : d ∈ message_to_binary s) : d < 2 := by
  rw [message_to_binary] at hd
  rcases List.mem_flatten.mp hd with ⟨l, hl, hdl⟩
  rcases List.mem_map.mp hl with ⟨c, _, rfl⟩
  exact format8_digits_lt_two c d hdl

theorem message_to_binary_length (s : List Nat) (hs : ∀ c ∈ s, c < 256) :
    (message_to_binary s).length = 8 * s.length := by
  induction s with
  | nil => rfl
  | cons c cs ih =>
    rw [message_to_binary_cons, List.length_append,
      format8_length c (hs c (List.mem_cons_self c cs)),
      ih (fun x hx => hs x (List.mem_cons_of_mem c hx)), List.length_cons]
    ring

theorem delimiter_bytes : ∀ c ∈ delimiter, c < 256 := by decide

theorem binary_to_message_short (l : List Nat) (hl : l.length < 8) :
    binary_to_message l = [] := by
  rcases l with _ | ⟨a, _ | ⟨b, _ | ⟨c, _ | ⟨d, _ | ⟨e, _ | ⟨f, _ | ⟨g, _ | ⟨h2, rest⟩⟩⟩⟩⟩⟩⟩⟩ <;>
    first
      | rfl
      | (simp only [List.length_cons] at hl; omega)

theorem binary_to_message_append8 (l t : List Nat) (hl : l.length = 8) :
    binary_to_message (l ++ t) = bitsToNat l :: binary_to_message t := by
  rcases l with _ | ⟨a, _ | ⟨b, _ | ⟨c, _ | ⟨d, _ | ⟨e, _ | ⟨f, _ | ⟨g, _ | ⟨h2, rest⟩⟩⟩⟩⟩⟩⟩⟩ <;>
      simp only [List.length_cons, List.length_nil] at hl <;>
    try omega
  have : rest = [] := List.eq_nil_of_length_eq_zero (by omega)
  subst this
  rfl

theorem binary_to_message_message_append (s t : List Nat) (hs : ∀ c ∈ s, c < 256) :
    binary_to_message (message_to_binary s ++ t) = s ++ binary_to_message t := by
  induction s with
  | nil => rfl
  | cons c cs ih =>
    rw [message_to_binary_cons, List.append_assoc,
      binary_to_message_append8 _ _ (format8_length c (hs c (List.mem_cons_self c cs))),
      bitsToNat_format8, ih (fun x hx => hs x (List.mem_cons_of_mem c hx)), List.cons_append]

/-! ### The embedding walk -/

theorem hideLoop_nil_bits : ∀ ps : List Pixel, hideLoop ps [] = ps
  | [] => rfl
  | _ :: _ => rfl

theorem hideLoop_length (ps : List Pixel) :
    ∀ bits : List Nat, (hideLoop ps bits).length = ps.length := by
  induction ps with
  | nil => intro bits; rfl
  | cons p ps ih =>
    obtain ⟨r, g, bl⟩ := p
    intro bits
    rcases bits with _ | ⟨d1, _ | ⟨d2, _ | ⟨d3, rest⟩⟩⟩
    · rfl
    · rfl
    · rfl
    · simp only [hideLoop, List.length_cons, ih rest]

theorem channelList_nil : channelList [] = [] := rfl

theorem channelList_cons (r g bl : Nat) (ps : List Pixel) :
    channelList ((r, g, bl) :: ps) = r :: g :: bl :: channelList ps := by
  simp [channelList]

theorem channelList_length (ps : List Pixel) : (channelList ps).length = 3 * ps.length := by
  induction ps with
  | nil => rfl
  | cons p ps ih =>
    obtain ⟨r, g, bl⟩ := p
    rw [channelList_cons, List.length_cons, List.length_cons, List.length_cons, ih,
      List.length_cons]
    ring

theorem extractBits_eq_map (ps : List Pixel) :
    extractBits ps = (channelList ps).map (fun c => c % 2) := by
  induction ps with
  | nil => rfl
  | cons p ps ih =>
    obtain ⟨r, g, bl⟩ := p
    rw [extractBits, channelList_cons, List.map_cons, List.map_cons, List.map_cons, ← ih,
      extract_lsb_eq, extract_lsb_eq, extract_lsb_eq]

theorem extractBits_length (ps : List Pixel) : (extractBits ps).length = 3 * ps.length := by
  rw [extractBits_eq_map, List.length_map, channelList_length]

theorem extractBits_hideLoop (ps : List Pixel) :
    ∀ bits : List Nat, (∀ d ∈ bits, d < 2) → bits.length ≤ 3 * ps.length →
      extractBits (hideLoop ps bits) = bits ++ (extractBits ps).drop bits.length := by
  induction ps with
  | nil =>
    intro bits hb hlen
    simp only [List.length_nil, Nat.mul_zero, Nat.le_zero] at hlen
    have : bits = [] := List.eq_nil_of_length_eq_zero hlen
    subst this
    rfl
  | cons p ps ih =>
    obtain ⟨r, g, bl⟩ := p
    intro bits hb hlen
    rcases bits with _ | ⟨d1, _ | ⟨d2, _ | ⟨d3, rest⟩⟩⟩
    · rw [hideLoop_nil_bits]
      simp
    · simp only [hideLoop, extractBits, List.length_cons, List.length_nil, List.cons_append,
        List.nil_append, List.drop_succ_cons, List.drop_zero]
      rw [extract_lsb_modify_pixel r d1 (hb d1 (by simp))]
    · simp only [hideLoop, extractBits, List.length_cons, List.length_nil, List.cons_append,
        List.nil_append, List.drop_succ_cons, List.drop_zero]
      rw [extract_lsb_modify_pixel r d1 (hb d1 (by simp)),
        extract_lsb_modify_pixel g d2 (hb d2 (by simp))]
    · have hb' : ∀ d ∈ rest, d < 2 := fun d hd => hb d (by simp [hd])
      have hlen' : rest.length ≤ 3 * ps.length := by
        simp only [List.length_cons] at hlen
        omega
      simp only [hideLoop, extractBits, List.length_cons, List.cons_append,
        List.drop_succ_cons]
      rw [extract_lsb_modify_pixel r d1 (hb d1 (by simp)),
        extract_lsb_modify_pixel g d2 (hb d2 (by simp)),
        extract_lsb_modify_pixel bl d3 (hb d3 (by simp)), ih rest hb' hlen']

theorem channelList_hideLoop (ps : List Pixel) :
    ∀ bits : List Nat, bits.length ≤ 3 * ps.length →
      channelList (hideLoop ps bits) =
        List.zipWith modify_pixel ((channelList ps).take bits.length) bits ++
          (channelList ps).drop bits.length := by
  induction ps with
  | nil =>
    intro bits hlen
    simp only [List.length_nil, Nat.mul_zero, Nat.le_zero] at hlen
    have : bits = [] := List.eq_nil_of_length_eq_zero hlen
    subst this
    rfl
  | cons p ps ih =>
    obtain ⟨r, g, bl⟩ := p
    intro bits hlen
    rcases bits with _ | ⟨d1, _ | ⟨d2, _ | ⟨d3, rest⟩⟩⟩
    · rw [hideLoop_nil_bits]
      simp
    · simp [hideLoop, channelList_cons]
    · simp [hideLoop, channelList_cons]
    · have hlen' : rest.length ≤ 3 * ps.length := by
        simp only [List.length_cons] at hlen
        omega
      simp only [hideLoop, channelList_cons, List.length_cons, List.take_succ_cons,
        List.drop_succ_cons, List.zipWith_cons_cons, List.cons_append]
      rw [ih rest hlen']

/-! ### Comparator lemmas -/

theorem diffList_cons (p q : Pixel) (ps qs : List Pixel) :
    diffList (p :: ps) (q :: qs) = pixelDiffs p q ++ diffList ps qs := by
  simp [diffList]

theorem diffList_self_zero (ps : List Pixel) : ∀ x ∈ diffList ps ps, x = 0 := by
  induction ps with
  | nil => intro x hx; simp [diffList] at hx
  | cons p ps ih =>
    intro x hx
    rw [diffList_cons] at hx
    rcases List.mem_append.mp hx with h | h
    · simp [pixelDiffs] at h
      omega
    · exact ih x h

theorem filter_pos_len_one (e : Nat) :
    (List.filter (fun d => decide (0 < d)) [e, 0, 0]).length ≤ 1 := by
  by_cases h : 0 < e <;> simp [List.filter, h]

theorem filter_pos_len_two (e1 e2 : Nat) :
    (List.filter (fun d => decide (0 < d)) [e1, e2, 0]).length ≤ 2 := by
  by_cases h1 : 0 < e1 <;> by_cases h2 : 0 < e2 <;> simp [List.filter, h1, h2]

theorem changedDiffs_self (ps : List Pixel) : changedDiffs ps ps = [] := by
  rw [changedDiffs, List.filter_eq_nil_iff]
  intro x hx
  simp [diffList_self_zero ps x hx]

theorem diffList_hideLoop_le_one (ps : List Pixel) :
    ∀ bits : List Nat, (∀ d ∈ bits, d < 2) →
      ∀ x ∈ diffList ps (hideLoop ps bits), x ≤ 1 := by
  induction ps with
  | nil => intro bits _ x hx; simp [hideLoop, diffList] at hx
  | cons p ps ih =>
    obtain ⟨r, g, bl⟩ := p
    intro bits hb x hx
    rcases bits with _ | ⟨d1, _ | ⟨d2, _ | ⟨d3, rest⟩⟩⟩
    · rw [hideLoop_nil_bits] at hx
      rw [diffList_self_zero _ x hx]
      omega
    · rw [hideLoop, diffList_cons] at hx
      rcases List.mem_append.mp hx with h | h
      · have hd1 : d1 < 2 := hb d1 (by simp)
        simp [pixelDiffs, modify_pixel_eq] at h
        rcases h with h | h | h <;> omega
      · rw [diffList_self_zero _ x h]
        omega
    · rw [hideLoop, diffList_cons] at hx
      rcases List.mem_append.mp hx with h | h
      · have hd1 : d1 < 2 := hb d1 (by simp)
        have hd2 : d2 < 2 := hb d2 (by simp)
        simp [pixelDiffs, modify_pixel_eq] at h
        rcases h with h | h | h <;> omega
      · rw [diffList_self_zero _ x h]
        omega
    · rw [hideLoop, diffList_cons] at hx
      rcases List.mem_append.mp hx with h | h
      · have hd1 : d1 < 2 := hb d1 (by simp)
        have hd2 : d2 < 2 := hb d2 (by simp)
        have hd3 : d3 < 2 := hb d3 (by simp)
        simp [pixelDiffs, modify_pixel_eq] at h
        rcases h with h | h | h <;> omega
      · exact ih rest (fun d hd => hb d (by simp [hd])) x h

theorem differences_hideLoop_le (ps : List Pixel) :
    ∀ bits : List Nat, differences ps (hideLoop ps bits) ≤ bits.length := by
  induction ps with
  | nil => intro bits; simp [differences, changedDiffs, hideLoop, diffList]
  | cons p ps ih =>
    obtain ⟨r, g, bl⟩ := p
    intro bits
    rcases bits with _ | ⟨d1, _ | ⟨d2, _ | ⟨d3, rest⟩⟩⟩
    · rw [hideLoop_nil_bits]
      have : changedDiffs ((r, g, bl) :: ps) ((r, g, bl) :: ps) = [] :=
        changedDiffs_self _
      simp [differences, this]
    · rw [hideLoop]
      rw [differences, changedDiffs, diffList_cons, List.filter_append, List.length_append]
      have h1 : (List.filter (fun d => decide (0 < d))
          (pixelDiffs (r, g, bl) (modify_pixel r d1, g, bl))).length ≤ 1 := by
        simp only [pixelDiffs, sub_self, Int.natAbs_zero]
        exact filter_pos_len_one _
      have h2 : List.filter (fun d => decide (0 < d)) (diffList ps ps) = [] :=
        changedDiffs_self ps
      rw [h2]
      simpa using h1
    · rw [hideLoop]
      rw [differences, changedDiffs, diffList_cons, List.filter_append, List.length_append]
      have h1 : (List.filter (fun d => decide (0 < d))
          (pixelDiffs (r, g, bl) (modify_pixel r d1, modify_pixel g d2, bl))).length ≤ 2 := by
        simp only [pixelDiffs, sub_self, Int.natAbs_zero]
        exact filter_pos_len_two _ _
      have h2 : List.filter (fun d => decide (0 < d)) (diffList ps ps) = [] :=
        changedDiffs_self ps
      rw [h2]
      simp only [List.length_nil, Nat.add_zero, List.length_cons]
      omega
    · rw [hideLoop]
      rw [differences, changedDiffs, diffList_cons, List.filter_append, List.length_append]
      have h1 : (List.filter (fun d => decide (0 < d))
          (pixelDiffs (r, g, bl)
            (modify_pixel r d1, modify_pixel g d2, modify_pixel bl d3))).length ≤ 3 := by
        calc (List.filter (fun d => decide (0 < d))
            (pixelDiffs (r, g, bl)
              (modify_pixel r d1, modify_pixel g d2, modify_pixel bl d3))).length
            ≤ (pixelDiffs (r, g, bl)
              (modify_pixel r d1, modify_pixel g d2, modify_pixel bl d3)).length :=
              List.length_filter_le _ _
          _ = 3 := rfl
      have h2 := ih rest
      rw [differences, changedDiffs] at h2
      simp only [List.length_cons]
      omega

theorem foldl_max_le (l : List Nat) :
    ∀ acc c : Nat, acc ≤ c → (∀ x ∈ l, x ≤ c) → l.foldl max acc ≤ c := by
  induction l with
  | nil => intro acc c h _; exact h
  | cons x xs ih =>
    intro acc c hacc hl
    exact ih _ _ (max_le hacc (hl x (by simp))) (fun y hy => hl y (by simp [hy]))

theorem mem_zip_self (l : List Nat) : ∀ pb ∈ l.zip l, pb.1 = pb.2 := by
  induction l with
  | nil => intro pb hpb; simp at hpb
  | cons x xs ih =>
    intro pb hpb
    rw [List.zip_cons_cons] at hpb
    rcases List.mem_cons.mp hpb with h | h
    · rw [h]
    · exact ih pb h

theorem zip_channelList_hideLoop_le_one (ps : List Pixel) :
    ∀ bits : List Nat, (∀ d ∈ bits, d < 2) →
      ∀ pb ∈ (channelList ps).zip (channelList (hideLoop ps bits)),
        ((pb.1 : Int) - (pb.2 : Int)).natAbs ≤ 1 := by
  induction ps with
  | nil => intro bits _ pb hpb; simp [channelList] at hpb
  | cons p ps ih =>
    obtain ⟨r, g, bl⟩ := p
    intro bits hb pb hpb
    rcases bits with _ | ⟨d1, _ | ⟨d2, _ | ⟨d3, rest⟩⟩⟩
    · rw [hideLoop_nil_bits] at hpb
      rw [mem_zip_self _ pb hpb]
      simp
    · rw [hideLoop, channelList_cons, channelList_cons, List.zip_cons_cons,
        List.zip_cons_cons, List.zip_cons_cons] at hpb
      have hd1 : d1 < 2 := hb d1 (by simp)
      rcases List.mem_cons.mp hpb with h | h
      · rw [h]
        simp only [modify_pixel_eq]
        omega
      rcases List.mem_cons.mp h with h2 | h2
      · rw [h2]; simp
      rcases List.mem_cons.mp h2 with h3 | h3
      · rw [h3]; simp
      · rw [mem_zip_self _ pb h3]; simp
    · rw [hideLoop, channelList_cons, channelList_cons, List.zip_cons_cons,
        List.zip_cons_cons, List.zip_cons_cons] at hpb
      have hd1 : d1 < 2 := hb d1 (by simp)
      have hd2 : d2 < 2 := hb d2 (by simp)
      rcases List.mem_cons.mp hpb with h | h
      · rw [h]
        simp only [modify_pixel_eq]
        omega
      rcases List.mem_cons.mp h with h2 | h2
      · rw [h2]
        simp only [modify_pixel_eq]
        omega
      rcases List.mem_cons.mp h2 with h3 | h3
      · rw [h3]; simp
      · rw [mem_zip_self _ pb h3]; simp
    · rw [hideLoop, channelList_cons, channelList_cons, List.zip_cons_cons,
        List.zip_cons_cons, List.zip_cons_cons] at hpb
      have hd1 : d1 < 2 := hb d1 (by simp)
      have hd2 : d2 < 2 := hb d2 (by simp)
      have hd3 : d3 < 2 := hb d3 (by simp)
      rcases List.mem_cons.mp hpb with h | h
      · rw [h]
        simp only [modify_pixel_eq]
        omega
      rcases List.mem_cons.mp h with h2 | h2
      · rw [h2]
        simp only [modify_pixel_eq]
        omega
      rcases List.mem_cons.mp h2 with h3 | h3
      · rw [h3]
        simp only [modify_pixel_eq]
        omega
      · exact ih rest (fun d hd => hb d (by simp [hd])) pb h3

theorem max_diff_hideLoop_le_one (ps : List Pixel) (bits : List Nat)
    (hb : ∀ d ∈ bits, d < 2) : max_diff ps (hideLoop ps bits) ≤ 1 := by
  rw [max_diff]
  refine foldl_max_le _ 0 1 (by omega) ?_
  intro x hx
  rw [changedDiffs] at hx
  exact diffList_hideLoop_le_one ps bits hb x (List.mem_of_mem_filter hx)

/-! ### The delimiter search -/

theorem isPrefixOf_append_of_le (p : List Nat) :
    ∀ l t : List Nat, p.length ≤ l.length →
      p.isPrefixOf (l ++ t) = p.isPrefixOf l := by
  induction p with
  | nil => intro l t _; simp [List.isPrefixOf]
  | cons a as ih =>
    intro l t h
    cases l with
    | nil => simp at h
    | cons b bs =>
      simp only [List.cons_append, List.isPrefixOf, List.append_eq]
      rw [ih bs t (by simp only [List.length_cons] at h; omega)]

theorem isPrefixOf_append_self (p t : List Nat) : p.isPrefixOf (p ++ t) = true := by
  induction p with
  | nil => simp [List.isPrefixOf]
  | cons a as ih => simp [List.isPrefixOf, ih]

theorem splitBefore_first (l : List Nat) :
    ∀ i : Nat, delimiter.isPrefixOf (l.drop i) = true →
      (∀ j, j < i → delimiter.isPrefixOf (l.drop j) = false) →
      splitBefore l = some (l.take i) := by
  induction l with
  | nil =>
    intro i h _
    rw [List.drop_nil] at h
    exact absurd h (by decide)
  | cons x xs ih =>
    intro i h hmin
    cases i with
    | zero =>
      rw [List.drop_zero] at h
      simp [splitBefore, h]
    | succ i =>
      have h0 : delimiter.isPrefixOf (x :: xs) = false := by
        have := hmin 0 (Nat.succ_pos i)
        rwa [List.drop_zero] at this
      rw [List.drop_succ_cons] at h
      have hmin' : ∀ j, j < i → delimiter.isPrefixOf (xs.drop j) = false := by
        intro j hj
        have := hmin (j + 1) (by omega)
        rwa [List.drop_succ_cons] at this
      rw [splitBefore, if_neg (by simp [h0]), ih i h hmin']
      rfl

theorem splitBefore_none (l : List Nat)
    (h : ∀ i, delimiter.isPrefixOf (l.drop i) = false) : splitBefore l = none := by
  induction l with
  | nil => rfl
  | cons x xs ih =>
    have h0 : delimiter.isPrefixOf (x :: xs) = false := by
      have := h 0
      rwa [List.drop_zero] at this
    have hrest : splitBefore xs = none := by
      refine ih ?_
      intro i
      have := h (i + 1)
      rwa [List.drop_succ_cons] at this
    rw [splitBefore, if_neg (by simp [h0]), hrest]
    rfl

/-! ### Claim theorems -/

/-- C5: the bit codec round-trips exactly: for every byte sequence (every
character code below 256), converting to bits (8 bits per byte, MSB first)
and back yields the sequence unchanged. -/
theorem bit_codec_roundtrip (bs : List Nat) (hb : ∀ c ∈ bs, c < 256) :
    binary_to_message (message_to_binary bs) = bs := by
  have h := binary_to_message_message_append bs [] hb
  simpa [show binary_to_message ([] : List Nat) = [] from rfl] using h

/-- Witness for C5 at the byte sequence `[104, 105]` (`"hi"`). -/
theorem bit_codec_roundtrip_witness :
    (∀ c ∈ [104, 105], c < 256) ∧
      binary_to_message (message_to_binary [104, 105]) = [104, 105] :=
  ⟨by decide, bit_codec_roundtrip [104, 105] (by decide)⟩

/-- C6 counterexample: for the one-character message with code point 256,
`format(ord(c), '08b')` produces nine digits, so the payload bit sequence has
length 81, not 8 × (1 + 9) = 80. -/
theorem message_bits_length_cex :
    (message_to_binary ([256] ++ delimiter)).length ≠
      8 * (([256] : List Nat).length + delimiter.length) := by decide

/-- C6 (amended): for every message whose character codes are all below 256,
the payload bit sequence has length exactly 8 × (message length + delimiter
length). -/
theorem message_bits_length (m : List Nat) (hm : ∀ c ∈ m, c < 256) :
    (message_to_binary (m ++ delimiter)).length = 8 * (m.length + delimiter.length) := by
  have hall : ∀ c ∈ m ++ delimiter, c < 256 := by
    intro c hc
    rcases List.mem_append.mp hc with h | h
    · exact hm c h
    · exact delimiter_bytes c h
  rw [message_to_binary_length _ hall, List.length_append]

/-- Witness for C6 (amended) at the message `[104, 105]`. -/
theorem message_bits_length_witness :
    (∀ c ∈ [104, 105], c < 256) ∧
      (message_to_binary ([104, 105] ++ delimiter)).length =
        8 * (([104, 105] : List Nat).length + delimiter.length) :=
  ⟨by decide, message_bits_length [104, 105] (by decide)⟩

/-- C7: bits-to-bytes conversion consumes the bits in consecutive groups of 8
(group `i` is `bits[8*i : 8*i+8]`), and a trailing group of fewer than 8 bits
is discarded: the output has exactly `len(bits) / 8` bytes. -/
theorem bits_to_bytes_chunks (l : List Nat) :
    (binary_to_message l).length = l.length / 8 ∧
    ∀ i, i < l.length / 8 →
      (binary_to_message l).getD i 0 = bitsToNat ((l.drop (8 * i)).take 8) := by
  suffices H : ∀ n (l : List Nat), l.length = n →
      (binary_to_message l).length = l.length / 8 ∧
      ∀ i, i < l.length / 8 →
        (binary_to_message l).getD i 0 = bitsToNat ((l.drop (8 * i)).take 8) from
    H l.length l rfl
  intro n
  induction n using Nat.strong_induction_on with
  | _ n ih =>
    intro l hl
    by_cases hshort : l.length < 8
    · rw [binary_to_message_short l hshort]
      refine ⟨by simp [Nat.div_eq_of_lt hshort], ?_⟩
      intro i hi
      rw [Nat.div_eq_of_lt hshort] at hi
      omega
    · obtain ⟨c, t, hct, hc8⟩ : ∃ c t, l = c ++ t ∧ c.length = 8 := by
        refine ⟨l.take 8, l.drop 8, (List.take_append_drop 8 l).symm, ?_⟩
        rw [List.length_take]
        omega
      subst hct
      subst hl
      rw [binary_to_message_append8 c t hc8]
      have ht := ih t.length (by rw [List.length_append, hc8]; omega) t rfl
      constructor
      · rw [List.length_cons, ht.1, List.length_append, hc8]
        omega
      · intro i hi
        cases i with
        | zero =>
          simp only [List.getD_cons_zero, Nat.mul_zero, List.drop_zero]
          rw [List.take_append_eq_append_take, hc8, Nat.sub_self, List.take_zero,
            List.append_nil, ← hc8, List.take_length]
        | succ i =>
          simp only [List.getD_cons_succ]
          rw [ht.2 i (by rw [List.length_append, hc8] at hi; omega)]
          have harith : 8 * i + 8 - 8 = 8 * i := by omega
          conv_rhs => rw [show 8 * (i + 1) = 8 * i + 8 by ring,
            List.drop_append_eq_append_drop,
            List.drop_eq_nil_of_le (show c.length ≤ 8 * i + 8 by rw [hc8]; omega), hc8,
            List.nil_append, harith]

/-- Witness for C7 on a nine-bit stream: one full byte is produced and the
trailing bit is discarded. -/
theorem bits_to_bytes_chunks_witness :
    (binary_to_message [1, 0, 1, 0, 1, 0, 1, 0, 1]).length =
        ([1, 0, 1, 0, 1, 0, 1, 0, 1] : List Nat).length / 8 ∧
      (binary_to_message [1, 0, 1, 0, 1, 0, 1, 0, 1]).getD 0 0 =
        bitsToNat ((([1, 0, 1, 0, 1, 0, 1, 0, 1] : List Nat).drop (8 * 0)).take 8) :=
  ⟨(bits_to_bytes_chunks [1, 0, 1, 0, 1, 0, 1, 0, 1]).1,
    (bits_to_bytes_chunks [1, 0, 1, 0, 1, 0, 1, 0, 1]).2 0 (by decide)⟩

/-- C2 counterexample: the one-character message with code point 512 produces
a ten-digit `format(ord(c), '08b')`, so on a 27×1 grid (81 available bits) the
claimed bound 8 × (1 + 9) = 80 ≤ 81 holds, yet embedding fails. -/
theorem hide_message_capacity_cex :
    8 * (([512] : List Nat).length + delimiter.length) ≤ 3 * (27 * 1) ∧
      (hide_message 27 1 gridC [512]).isSome = false := by decide

/-- C2 (amended): for every grid and every message whose character codes are
all below 256, embedding succeeds (and produces an output grid) exactly when
8 × (message length + delimiter length) ≤ 3 × width × height; otherwise it
fails with no output. -/
theorem hide_message_capacity (w h : Nat) (ps : List Pixel) (m : List Nat)
    (hm : ∀ c ∈ m, c < 256) :
    (hide_message w h ps m).isSome = true ↔
      8 * (m.length + delimiter.length) ≤ 3 * (w * h) := by
  have hall : ∀ c ∈ m ++ delimiter, c < 256 := by
    intro c hc
    rcases List.mem_append.mp hc with h2 | h2
    · exact hm c h2
    · exact delimiter_bytes c h2
  have hblen : (message_to_binary (m ++ delimiter)).length =
      8 * (m.length + delimiter.length) := by
    rw [message_to_binary_length _ hall, List.length_append]
  simp only [hide_message]
  split
  · next hgt =>
    rw [hblen] at hgt
    simp only [Option.isSome_none, Bool.false_eq_true, false_iff]
    omega
  · next hng =>
    rw [hblen] at hng
    simp only [Option.isSome_some, true_iff]
    omega

/-- Witness for C2 (amended) at the exact capacity boundary: the empty message
needs 72 bits, and a 4×6 grid offers exactly 72. -/
theorem hide_message_capacity_witness :
    (∀ c ∈ ([] : List Nat), c < 256) ∧ (hide_message 4 6 gridA []).isSome = true :=
  ⟨by decide, (hide_message_capacity 4 6 gridA [] (by decide)).mpr (by decide)⟩

/-- C9 (spec-modelled): the capacity query reports
`total_pixels = width × height`, `total_bits = total_pixels × 3`, a delimiter
overhead of 72 bits, and `max_characters = floor((total_bits − 72) / 8)`; it
is a pure function, so repeated calls with the same dimensions agree. -/
theorem get_capacity_spec (w h : Nat) :
    (get_capacity w h).total_pixels = w * h ∧
    (get_capacity w h).total_bits = (get_capacity w h).total_pixels * 3 ∧
    (get_capacity w h).delimiter_overhead = 8 * delimiter.length ∧
    (get_capacity w h).delimiter_overhead = 72 ∧
    (get_capacity w h).max_characters =
      Int.fdiv (((get_capacity w h).total_bits : Int) -
        ((get_capacity w h).delimiter_overhead : Int)) 8 ∧
    get_capacity w h = get_capacity w h :=
  ⟨rfl, rfl, rfl, rfl, rfl, rfl⟩

/-- C8: a successful embedding changes each channel value by at most 1, and
the number of changed channel values (as counted by `compare_images`) is at
most the payload bit length. -/
theorem hide_message_perturbation (w h : Nat) (ps out : List Pixel) (m : List Nat)
    (hsucc : hide_message w h ps m = some out) :
    max_diff ps out ≤ 1 ∧
      differences ps out ≤ (message_to_binary (m ++ delimiter)).length := by
  simp only [hide_message] at hsucc
  split at hsucc
  · exact absurd hsucc (by simp)
  · have hout : out = hideLoop ps (message_to_binary (m ++ delimiter)) :=
      (Option.some_inj.mp hsucc).symm
    subst hout
    exact ⟨max_diff_hideLoop_le_one ps _
        (fun d hd => message_to_binary_digits_lt_two _ d hd),
      differences_hideLoop_le ps _⟩

/-- Witness for C8: embedding `[104]` (`"h"`) into the 27×1 grid `gridC`. -/
theorem hide_message_perturbation_witness :
    hide_message 27 1 gridC [104] = some stegoC ∧
      max_diff gridC stegoC ≤ 1 ∧
      differences gridC stegoC ≤ (message_to_binary ([104] ++ delimiter)).length :=
  ⟨by decide, hide_message_perturbation 27 1 gridC stegoC [104] (by decide)⟩

/-- C3: a successful embedding walks the channels in R, G, B order within
row-major pixels: the flattened channel list of the output is the flattened
channel list of the input with, position by position, the least-significant
bit of each of the first `len(bits)` channels replaced by the corresponding
payload bit (`modify_pixel`), and every later channel unchanged; the output
has the same number of pixels, every channel moves by at most 1, and
`modify_pixel` sets the LSB to the data bit while preserving the seven
higher-order bits (`value / 2`). -/
theorem hide_message_structure (w h : Nat) (ps out : List Pixel) (m : List Nat)
    (hlen : ps.length = w * h)
    (hsucc : hide_message w h ps m = some out) :
    out.length = ps.length ∧
    channelList out =
      List.zipWith modify_pixel
          ((channelList ps).take (message_to_binary (m ++ delimiter)).length)
          (message_to_binary (m ++ delimiter)) ++
        (channelList ps).drop (message_to_binary (m ++ delimiter)).length ∧
    (∀ pb ∈ (channelList ps).zip (channelList out),
      ((pb.1 : Int) - (pb.2 : Int)).natAbs ≤ 1) ∧
    ∀ p b : Nat, b < 2 → modify_pixel p b % 2 = b ∧ modify_pixel p b / 2 = p / 2 := by
  simp only [hide_message] at hsucc
  split at hsucc
  · exact absurd hsucc (by simp)
  · next hng =>
    have hout : out = hideLoop ps (message_to_binary (m ++ delimiter)) :=
      (Option.some_inj.mp hsucc).symm
    subst hout
    have hble : (message_to_binary (m ++ delimiter)).length ≤ 3 * ps.length := by
      rw [hlen]
      omega
    refine ⟨hideLoop_length ps _, channelList_hideLoop ps _ hble,
      zip_channelList_hideLoop_le_one ps _
        (fun d hd => message_to_binary_digits_lt_two _ d hd), ?_⟩
    intro p b hb
    rw [modify_pixel_eq]
    omega

/-- Witness for C3: embedding the empty message into the 4×6 grid `gridB`. -/
theorem hide_message_structure_witness :
    (gridB.length = 4 * 6 ∧ hide_message 4 6 gridB [] = some stegoB) ∧
      (stegoB.length = gridB.length ∧
        channelList stegoB =
          List.zipWith modify_pixel
              ((channelList gridB).take (message_to_binary ([] ++ delimiter)).length)
              (message_to_binary ([] ++ delimiter)) ++
            (channelList gridB).drop (message_to_binary ([] ++ delimiter)).length ∧
        (∀ pb ∈ (channelList gridB).zip (channelList stegoB),
          ((pb.1 : Int) - (pb.2 : Int)).natAbs ≤ 1) ∧
        ∀ p b : Nat, b < 2 → modify_pixel p b % 2 = b ∧ modify_pixel p b / 2 = p / 2) :=
  ⟨⟨by decide, by decide⟩,
    hide_message_structure 4 6 gridB stegoB [] (by decide) (by decide)⟩

/-- C1 counterexample: the message `"###END###"` (the delimiter itself) fits a
16×3 grid (144 payload bits, 144 available), but the round trip returns the
empty message: extraction stops at the first delimiter occurrence, which is at
position 0. -/
theorem roundtrip_cex :
    8 * (delimiter.length + delimiter.length) ≤ 3 * (16 * 3) ∧
      (hide_message 16 3 gridD delimiter).bind extract_message ≠ some delimiter := by
  decide

/-- C1 (amended): the round trip `extract ∘ embed` is the identity for every
message whose character codes are all below 256, provided the payload fits the
grid's capacity and the delimiter does not occur inside `m ++ delimiter`
before position `len(m)`. -/
theorem roundtrip (w h : Nat) (ps : List Pixel) (m : List Nat)
    (hlen : ps.length = w * h)
    (hm : ∀ c ∈ m, c < 256)
    (hfit : 8 * (m.length + delimiter.length) ≤ 3 * (w * h))
    (hsep : ∀ i, i < m.length →
      delimiter.isPrefixOf ((m ++ delimiter).drop i) = false) :
    (hide_message w h ps m).bind extract_message = some m := by
  have hall : ∀ c ∈ m ++ delimiter, c < 256 := by
    intro c hc
    rcases List.mem_append.mp hc with h2 | h2
    · exact hm c h2
    · exact delimiter_bytes c h2
  have hblen : (message_to_binary (m ++ delimiter)).length =
      8 * (m.length + delimiter.length) := by
    rw [message_to_binary_length _ hall, List.length_append]
  have hble : (message_to_binary (m ++ delimiter)).length ≤ w * h * 3 := by omega
  have hble3 : (message_to_binary (m ++ delimiter)).length ≤ 3 * ps.length := by
    rw [hlen]
    omega
  have hbinary : ∀ d ∈ message_to_binary (m ++ delimiter), d < 2 :=
    fun d hd => message_to_binary_digits_lt_two _ d hd
  have hsome : hide_message w h ps m =
      some (hideLoop ps (message_to_binary (m ++ delimiter))) := by
    simp only [hide_message]
    rw [if_neg (by omega)]
  rw [hsome, Option.some_bind]
  have hfull : binary_to_message
      (extractBits (hideLoop ps (message_to_binary (m ++ delimiter)))) =
      (m ++ delimiter) ++ binary_to_message
        ((extractBits ps).drop (message_to_binary (m ++ delimiter)).length) := by
    rw [extractBits_hideLoop ps _ hbinary hble3, binary_to_message_message_append _ _ hall]
  rw [extract_message, hfull]
  have hocc : delimiter.isPrefixOf
      ((((m ++ delimiter) ++ binary_to_message
        ((extractBits ps).drop (message_to_binary (m ++ delimiter)).length))).drop
          m.length) = true := by
    rw [List.append_assoc, List.drop_left]
    exact isPrefixOf_append_self delimiter _
  have hmin : ∀ j, j < m.length →
      delimiter.isPrefixOf
        (((m ++ delimiter) ++ binary_to_message
          ((extractBits ps).drop (message_to_binary (m ++ delimiter)).length)).drop j)
        = false := by
    intro j hj
    rw [List.drop_append_eq_append_drop]
    have hz : j - (m ++ delimiter).length = 0 := by
      rw [List.length_append]
      omega
    have hle9 : delimiter.length ≤ ((m ++ delimiter).drop j).length := by
      rw [List.length_drop, List.length_append]
      omega
    rw [hz, List.drop_zero, isPrefixOf_append_of_le _ _ _ hle9]
    exact hsep j hj
  rw [splitBefore_first _ m.length hocc hmin, List.append_assoc, List.take_left]

/-- Witness for C1 (amended): the empty message on the 4×6 grid `gridA`. -/
theorem roundtrip_witness :
    8 * (([] : List Nat).length + delimiter.length) ≤ 3 * (4 * 6) ∧
      (hide_message 4 6 gridA []).bind extract_message = some [] :=
  ⟨by decide, roundtrip 4 6 gridA [] (by decide) (by decide) (by decide) (by decide)⟩

/-- C4: extraction collects the least-significant bit of every channel of
every pixel of the whole grid (R, G, B within each pixel, row-major),
converts the bit stream to bytes, and splits at the first occurrence of the
delimiter: when some occurrence exists it returns exactly the bytes preceding
the first one, and when none exists it returns `none` (no partial result). -/
theorem extract_message_spec (ps : List Pixel) :
    extract_message ps =
      splitBefore (binary_to_message ((channelList ps).map (fun c => c % 2))) ∧
    ((∃ i, occursAt (binary_to_message (extractBits ps)) i) →
      ∃ i, occursAt (binary_to_message (extractBits ps)) i ∧
        (∀ j, j < i → ¬ occursAt (binary_to_message (extractBits ps)) j) ∧
        extract_message ps = some ((binary_to_message (extractBits ps)).take i)) ∧
    ((∀ i, ¬ occursAt (binary_to_message (extractBits ps)) i) →
      extract_message ps = none) := by
  refine ⟨?_, ?_, ?_⟩
  · rw [extract_message, extractBits_eq_map]
  · intro hex
    refine ⟨Nat.find hex, Nat.find_spec hex, fun j hj => Nat.find_min hex hj, ?_⟩
    rw [extract_message]
    refine splitBefore_first _ _ (Nat.find_spec hex) ?_
    intro j hj
    have hj2 := Nat.find_min hex hj
    unfold occursAt at hj2
    rwa [Bool.not_eq_true] at hj2
  · intro hnone
    rw [extract_message]
    refine splitBefore_none _ ?_
    intro i
    have hi := hnone i
    unfold occursAt at hi
    rwa [Bool.not_eq_true] at hi

/-- Witness for C4 on a single-pixel grid: three bits form no full byte, no
delimiter occurs, and extraction fails with `none`. -/
theorem extract_message_spec_witness : extract_message [(0, 0, 0)] = none := by
  refine (extract_message_spec [(0, 0, 0)]).2.2 ?_
  intro i
  unfold occursAt
  rw [show binary_to_message (extractBits [((0 : Nat), (0 : Nat), (0 : Nat))]) = []
      from rfl,
    List.drop_nil]
  decide

end LSBSteg
